import Mathlib

/-!
Verification of `tqdm/asyncio.py` (class `tqdm_asyncio`): a shallow embedding
of the iteration-wrapping / progress-update protocol, of `as_completed` and of
`gather`, together with theorems settling the specified properties.

Modelling conventions.

A wrapped source is a `PySource`: its capability flags (`hasAnext` for an
asynchronous iterator exposing `__anext__`, `hasNext` for a synchronous
iterator exposing `__next__`), the finite list `elems` of elements it
produces, and an optional terminal exception `term` raised after the last
element (`none` means normal exhaustion).  A call to the bound
`iterable_next` is modelled by `pull`, a function of the number of calls
made so far: Python iterators keep signalling exhaustion on every call after
the terminal event, which the model reproduces.

The body of `tqdm_asyncio.__anext__` is `anext`: it performs one pull,
fires an `update` side effect and returns the element on success, and on a
terminal event fires a `close` side effect and signals the end of the
asynchronous iteration (for `StopIteration`, translated to
`StopAsyncIteration`; any other exception is re-raised unchanged, which for
an exhausted asynchronous source is its own `StopAsyncIteration`).  Side
effects on the display collaborator are recorded as an explicit trace of
`Eff` values; the collaborator itself is external to the core (spec §1, §6).
-/

namespace TqdmAsyncio

open List

/-- Result of one call to the bound `iterable_next` of the wrapped source:
an element, a synchronous exhaustion signal (`StopIteration`), an
asynchronous exhaustion signal (`StopAsyncIteration`), or any other
exception `e`. -/
inductive PullEvent (α ε : Type) where
  | value (a : α)
  | stopIteration
  | stopAsyncIteration
  | error (e : ε)
  deriving Repr, DecidableEq

/-- A wrapped source: capability flags probed by `__init__`, the finite
sequence of elements it yields, and the optional exception it raises after
them (`none` is normal exhaustion). -/
structure PySource (α ε : Type) where
  hasAnext : Bool
  hasNext : Bool
  elems : List α
  term : Option ε

/-- Side effects performed by the core on its collaborators.  `update` and
`close` are the opaque display-collaborator contract of spec §6; `cancel`
stands for a cancellation request to a scheduled operation (the code never
performs one, so no constructor of the model emits it). -/
inductive Eff where
  | update
  | close
  | cancel
  deriving Repr, DecidableEq

/-- Exhaustion signal of the wrapped source: an asynchronous iterator
raises `StopAsyncIteration`, a synchronous one raises `StopIteration`. -/
def stopSignal (s : PySource α ε) : PullEvent α ε :=
  if s.hasAnext then .stopAsyncIteration else .stopIteration

/-- The `pos`-th call (0-based) to the bound `iterable_next`.  Within
`elems` it returns the element; the first call past the end raises `term`
(or the exhaustion signal if `term = none`); every later call raises the
exhaustion signal, as Python iterators do once finished. -/
def pull (s : PySource α ε) (pos : Nat) : PullEvent α ε :=
  if h : pos < s.elems.length then .value (s.elems.get ⟨pos, h⟩)
  else if pos = s.elems.length then
    match s.term with
    | some e => .error e
    | none => stopSignal s
  else stopSignal s

/-- What one `__anext__` call delivers to the caller: an element, the end
of the asynchronous iteration (`StopAsyncIteration`), or a re-raised
exception. -/
inductive StepOut (α ε : Type) where
  | yield (a : α)
  | stopAsync
  | raise (e : ε)
  deriving Repr, DecidableEq

/-- Body of `tqdm_asyncio.__anext__` (src/tqdm/asyncio.py lines 41-54),
as a function of the wrapped source and of the number of `iterable_next`
calls already made.  It returns what the caller sees, the new call count,
and the trace of display side effects: `update` after a successful
element, `close` on `StopIteration` (translated to `StopAsyncIteration`),
`close` then re-raise on any other exception — including the wrapped
asynchronous source's own `StopAsyncIteration`, which the `BaseException`
handler re-raises after closing. -/
def anext (s : PySource α ε) (pos : Nat) : StepOut α ε × Nat × List Eff :=
  match pull s pos with
  | .value a => (.yield a, pos + 1, [.update])
  | .stopIteration => (.stopAsync, pos + 1, [.close])
  | .stopAsyncIteration => (.stopAsync, pos + 1, [.close])
  | .error e => (.raise e, pos + 1, [.close])

/-- How a drive of the asynchronous iteration ended: normal exhaustion,
a re-raised source failure, or fuel ran out before a terminal event. -/
inductive DriveEnd (ε : Type) where
  | exhausted
  | failed (e : ε)
  | outOfFuel
  deriving Repr, DecidableEq

/-- Driving the proxy's asynchronous iteration to completion from call
count `pos`: repeatedly call `anext`, collecting yielded elements and the
side-effect trace, stopping at the first terminal event.  `fuel` bounds the
number of calls (any `fuel > s.elems.length - pos` reaches the terminal
event). -/
def drive (s : PySource α ε) : Nat → Nat → List α × List Eff × DriveEnd ε
  | 0, _ => ([], [], .outOfFuel)
  | fuel + 1, pos =>
    match anext s pos with
    | (.yield a, pos', effs) =>
      let r := drive s fuel pos'
      (a :: r.1, effs ++ r.2.1, r.2.2)
    | (.stopAsync, _, effs) => ([], effs, .exhausted)
    | (.raise e, _, effs) => ([], effs, .failed e)

/-- The side-effect trace of a caller that stubbornly makes `n` successive
`__anext__` calls on one proxy instance, whether or not a terminal event
has already occurred (the `i`-th call is made with call count `i`). -/
def runN (s : PySource α ε) (n : Nat) : List Eff :=
  (List.range n).flatMap (fun pos => (anext s pos).2.2)

/-- The pull strategy bound once by `__init__` (src/tqdm/asyncio.py lines
25-36), in the spec's vocabulary (§4.1). -/
inductive Strategy where
  | asynchronousPull
  | synchronousPull
  | collectionIterator
  deriving Repr, DecidableEq

/-- Strategy selection of `__init__`: probe `__anext__` first, then
`__next__`, else fall back to `iter(iterable).__next__`. -/
def bindStrategy (hasAnext hasNext : Bool) : Strategy :=
  if hasAnext then .asynchronousPull
  else if hasNext then .synchronousPull
  else .collectionIterator

/-- The `iterable_awaitable` flag set by `__init__`: true exactly when the
asynchronous pull strategy was bound. -/
def iterable_awaitable (hasAnext _hasNext : Bool) : Bool :=
  if hasAnext then true else false

/-- Body of `tqdm_asyncio.send` (src/tqdm/asyncio.py lines 56-57): forward
the value to the wrapped source's `send` capability (here a function from
the source's resume-value type to its yield type, paired with a successor
source state) and return its result; the display step count is passed
through untouched and no display side effect is performed. -/
def send (srcSend : σ → β → γ × σ) (st : σ) (v : β) (displayN : Nat) :
    γ × σ × Nat × List Eff :=
  ((srcSend st v).1, (srcSend st v).2, displayN, [])

/-- One successful step: pulling inside `elems` yields the element,
advances the call count and fires exactly one `update`. -/
theorem anext_value (s : PySource α ε) (pos : Nat) (h : pos < s.elems.length) :
    anext s pos = (.yield s.elems[pos], pos + 1, [.update]) := by
  simp [anext, pull, h]

/-- Characterisation of a full drive from call count `pos`: with enough
fuel it returns the remaining elements in order, one `update` per element
followed by a single `close`, and ends according to `term`. -/
theorem drive_spec (s : PySource α ε) :
    ∀ (fuel pos : Nat), pos ≤ s.elems.length → s.elems.length - pos < fuel →
    drive s fuel pos =
      (s.elems.drop pos,
       List.replicate (s.elems.length - pos) .update ++ [.close],
       match s.term with
       | none => .exhausted
       | some e => .failed e) := by
  intro fuel
  induction fuel with
  | zero => intro pos _ hfuel; omega
  | succ fuel ih =>
    intro pos hpos hfuel
    rcases Nat.lt_or_ge pos s.elems.length with hlt | hge
    · have hstep := anext_value s pos hlt
      have hrec := ih (pos + 1) hlt (by omega)
      have hrep : s.elems.length - pos = (s.elems.length - (pos + 1)) + 1 := by omega
      have hdrop : s.elems.drop pos = s.elems[pos] :: s.elems.drop (pos + 1) :=
        (List.getElem_cons_drop s.elems pos hlt).symm
      simp only [drive, hstep, hrec, hrep, hdrop, List.replicate_succ,
        List.singleton_append, List.cons_append, List.nil_append]
    · have hpos' : pos = s.elems.length := by omega
      subst hpos'
      cases hterm : s.term with
      | none =>
        have : pull s s.elems.length = stopSignal s := by
          simp [pull, hterm]
        cases hsig : s.hasAnext with
        | false =>
          simp [drive, anext, this, stopSignal, hsig, hterm, Nat.sub_self]
        | true =>
          simp [drive, anext, this, stopSignal, hsig, hterm, Nat.sub_self]
      | some e =>
        have : pull s s.elems.length = .error e := by
          simp [pull, hterm]
        simp [drive, anext, this, hterm, Nat.sub_self]

/-- C1: for every finite wrapped source — asynchronous iterator, synchronous
iterator or plain collection, i.e. any capability flags — with `L` elements
and normal exhaustion, driving the proxy's asynchronous iteration to
completion yields exactly the `L` source elements unchanged and in order,
fires exactly `L` `update` side effects (one after each produced element)
followed by exactly one `close` at exhaustion. -/
theorem anext_drive_yields_all_updates_then_close
    (s : PySource α ε) (fuel : Nat)
    (hterm : s.term = none) (hfuel : s.elems.length < fuel) :
    drive s fuel 0 =
      (s.elems,
       List.replicate s.elems.length .update ++ [.close],
       .exhausted) := by
  have h := drive_spec s fuel 0 (Nat.zero_le _) (by omega)
  rw [hterm] at h
  simpa using h

/-- Witness for C1 at a concrete synchronous three-element source. -/
theorem anext_drive_yields_all_updates_then_close_witness :
    drive (⟨false, true, [10, 20, 30], none⟩ : PySource Nat Nat) 4 0 =
      ([10, 20, 30], [.update, .update, .update, .close], .exhausted) :=
  anext_drive_yields_all_updates_then_close _ 4 rfl (by decide)

/-- Counterexample to C2 as stated: on a proxy over an already-exhausted
(empty) synchronous source, two successive `__anext__` attempts each fire a
`close` side effect — the core calls `close()` again on every iteration
attempt after the first terminal event, so `close` is not performed at most
once per instance lifetime by this core. -/
theorem close_refires_after_exhaustion_counterexample :
    (runN (⟨false, true, ([] : List Nat), (none : Option Nat)⟩ : PySource Nat Nat) 2).count
      Eff.close = 2 := by decide

/-- C2 amended: within a single drive to completion, `close` fires exactly
once, on the first terminal event; however the core re-fires `close` on every
further `__anext__` attempt: `n` attempts on a normally-exhausting source
of length `L` fire exactly `min n L` updates and `n - min n L` closes, so
at-most-once behaviour of the display's `close()` is delegated to the
collaborator's own idempotence, not guaranteed by this core. -/
theorem runN_update_close_counts
    (s : PySource α ε) (n : Nat) (hterm : s.term = none) :
    (runN s n).count Eff.update = min n s.elems.length ∧
    (runN s n).count Eff.close = n - min n s.elems.length := by
  induction n with
  | zero => simp [runN]
  | succ n ih =>
    have hsplit : runN s (n + 1) = runN s n ++ (anext s n).2.2 := by
      simp [runN, List.range_succ]
    have c1 : ([Eff.update] : List Eff).count Eff.update = 1 := by decide
    have c2 : ([Eff.update] : List Eff).count Eff.close = 0 := by decide
    have c3 : ([Eff.close] : List Eff).count Eff.update = 0 := by decide
    have c4 : ([Eff.close] : List Eff).count Eff.close = 1 := by decide
    rcases Nat.lt_or_ge n s.elems.length with hlt | hge
    · have hstep : (anext s n).2.2 = [.update] := by
        rw [anext_value s n hlt]
      rw [hsplit, hstep]
      simp only [List.count_append, c1, c2, ih.1, ih.2]
      constructor <;> omega
    · have hpull : pull s n = stopSignal s := by
        rcases Nat.eq_or_lt_of_le hge with heq | hgt
        · have h1 : ¬ n < s.elems.length := by omega
          have h2 : n = s.elems.length := heq.symm
          simp [pull, h1, h2, hterm]
        · have h1 : ¬ n < s.elems.length := by omega
          have h2 : ¬ n = s.elems.length := by omega
          simp [pull, h1, h2]
      have hstep : (anext s n).2.2 = [.close] := by
        cases hsig : s.hasAnext <;> simp [anext, hpull, stopSignal, hsig]
      rw [hsplit, hstep]
      simp only [List.count_append, c3, c4, ih.1, ih.2]
      constructor <;> omega

/-- Witness for the amended C2: five attempts on a two-element source fire
two updates and three closes. -/
theorem runN_update_close_counts_witness :
    (runN (⟨false, true, [7, 8], none⟩ : PySource Nat Nat) 5).count Eff.update = min 5 2 ∧
    (runN (⟨false, true, [7, 8], none⟩ : PySource Nat Nat) 5).count Eff.close = 5 - min 5 2 :=
  runN_update_close_counts _ 5 rfl

/-- C3: a source that fails with exception `e` while producing the element
at position `k` (after yielding `k` elements) drives to: exactly those `k`
elements, exactly `k` updates, then exactly one `close`, and the identical
exception `e` re-raised to the caller — no wrapping, translation or
swallowing. -/
theorem anext_drive_fail_at_k
    (s : PySource α ε) (e : ε) (fuel : Nat)
    (hterm : s.term = some e) (hfuel : s.elems.length < fuel) :
    drive s fuel 0 =
      (s.elems,
       List.replicate s.elems.length .update ++ [.close],
       .failed e) := by
  have h := drive_spec s fuel 0 (Nat.zero_le _) (by omega)
  rw [hterm] at h
  simpa using h

/-- Witness for C3: a source failing at position 2 after two elements. -/
theorem anext_drive_fail_at_k_witness :
    drive (⟨false, true, [4, 5], some 99⟩ : PySource Nat Nat) 3 0 =
      ([4, 5], [.update, .update, .close], .failed 99) :=
  anext_drive_fail_at_k _ 99 3 rfl (by decide)

/-- C7: `__init__` binds exactly one pull strategy by fixed priority — an
asynchronous single-step-advance capability wins, else an existing
synchronous iterator's own advance is used directly, else a fresh
synchronous iterator is obtained from the collection; the
`iterable_awaitable` flag is set exactly when the asynchronous strategy was
bound. -/
theorem bindStrategy_priority :
    (∀ hasNext, bindStrategy true hasNext = .asynchronousPull) ∧
    bindStrategy false true = .synchronousPull ∧
    bindStrategy false false = .collectionIterator ∧
    (∀ hasAnext hasNext,
      iterable_awaitable hasAnext hasNext =
        decide (bindStrategy hasAnext hasNext = .asynchronousPull)) := by
  refine ⟨fun h => rfl, rfl, rfl, fun ha hn => ?_⟩
  cases ha <;> cases hn <;> decide

/-- C9: `send(v)` forwards `v` unchanged to the wrapped source's `send`
capability, returns that call's result, performs no `update` and leaves the
display step count unchanged. -/
theorem send_passthrough (srcSend : σ → β → γ × σ) (st : σ) (v : β) (displayN : Nat) :
    (send srcSend st v displayN).1 = (srcSend st v).1 ∧
    (send srcSend st v displayN).2.1 = (srcSend st v).2 ∧
    (send srcSend st v displayN).2.2.1 = displayN ∧
    (send srcSend st v displayN).2.2.2.count Eff.update = 0 ∧
    (send srcSend st v displayN).2.2.2 = [] :=
  ⟨rfl, rfl, rfl, rfl, rfl⟩

/-!
Model of `sorted(numbered_results)` (src/tqdm/asyncio.py line 100).  Python
sorts the `(index, result)` tuples by the tuples' own lexicographic `<`,
which compares the indices first and consults the result components only
when two indices are equal; comparing two results of mutually
non-comparable types raises `TypeError`.  The comparison on results is
therefore modelled as a completely arbitrary `cmp : β → β → Option Bool`,
where `none` stands for a raised `TypeError`, and the sort is a stable
insertion sort in the `Option` monad that fails as soon as a needed
comparison fails. -/

/-- Lexicographic `<` on Python tuples `(index, result)`: decided by the
indices alone unless they are equal, in which case the arbitrary (possibly
failing) result comparison `cmp` is consulted. -/
def pyLt (cmp : β → β → Option Bool) (a b : Nat × β) : Option Bool :=
  if a.1 < b.1 then some true
  else if b.1 < a.1 then some false
  else cmp a.2 b.2

/-- Insertion step of the comparator-failure-aware sort: insert `a` into
`l`, placing it before the first element it compares strictly below, and
fail (`none`) if a needed comparison fails. -/
def insertE (lt : γ → γ → Option Bool) (a : γ) : List γ → Option (List γ)
  | [] => some [a]
  | b :: bs =>
    match lt a b with
    | none => none
    | some true => some (a :: b :: bs)
    | some false => (insertE lt a bs).map (fun l => b :: l)

/-- Comparator-failure-aware insertion sort, modelling Python's `sorted`
with a comparison that may raise. -/
def sortE (lt : γ → γ → Option Bool) : List γ → Option (List γ)
  | [] => some []
  | a :: l =>
    match sortE lt l with
    | none => none
    | some l' => insertE lt a l'

/-- Insertion by index alone: the reference sort that never looks at the
result component of a pair. -/
def insKey (a : Nat × β) : List (Nat × β) → List (Nat × β)
  | [] => [a]
  | b :: bs => if a.1 < b.1 then a :: b :: bs else b :: insKey a bs

/-- Stable insertion sort of `(index, result)` pairs by index alone. -/
def sortKey : List (Nat × β) → List (Nat × β)
  | [] => []
  | a :: l => insKey a (sortKey l)

/-- Strict order on pairs by index alone. -/
def keyLt (a b : Nat × β) : Prop := a.1 < b.1

instance : IsAntisymm (Nat × β) keyLt :=
  ⟨fun _ _ h1 h2 => absurd (Nat.lt_trans h1 h2) (Nat.lt_irrefl _)⟩

theorem insKey_perm (a : Nat × β) (l : List (Nat × β)) : insKey a l ~ a :: l := by
  induction l with
  | nil => rfl
  | cons b bs ih =>
    by_cases h : a.1 < b.1
    · simp [insKey, h]
    · calc insKey a (b :: bs) = b :: insKey a bs := by simp [insKey, h]
        _ ~ b :: a :: bs := (ih.cons b)
        _ ~ a :: b :: bs := List.Perm.swap a b bs

theorem sortKey_perm (l : List (Nat × β)) : sortKey l ~ l := by
  induction l with
  | nil => rfl
  | cons a l ih =>
    calc sortKey (a :: l) = insKey a (sortKey l) := rfl
      _ ~ a :: sortKey l := insKey_perm a (sortKey l)
      _ ~ a :: l := ih.cons a

theorem mem_insKey {c a : Nat × β} {l : List (Nat × β)}
    (h : c ∈ insKey a l) : c = a ∨ c ∈ l := by
  have := (insKey_perm a l).mem_iff.mp h
  simpa using this

/-- When the inserted pair's index clashes with no index in the list, the
possibly-failing lexicographic insertion never consults the result
comparison: it succeeds and coincides with insertion by index alone, for
every `cmp`. -/
theorem insertE_eq_insKey (cmp : β → β → Option Bool) (a : Nat × β)
    (l : List (Nat × β)) (h : ∀ b ∈ l, a.1 ≠ b.1) :
    insertE (pyLt cmp) a l = some (insKey a l) := by
  induction l with
  | nil => rfl
  | cons b bs ih =>
    have hne : a.1 ≠ b.1 := h b (List.mem_cons_self b bs)
    by_cases hlt : a.1 < b.1
    · simp [insertE, insKey, pyLt, hlt]
    · have hgt : b.1 < a.1 := by omega
      have hrec := ih (fun c hc => h c (List.mem_cons_of_mem b hc))
      simp [insertE, insKey, pyLt, hlt, hgt, hrec]

/-- With pairwise-distinct indices, the possibly-failing lexicographic sort
never consults the result comparison: it succeeds and coincides with the
sort by index alone, for every `cmp`. -/
theorem sortE_eq_sortKey (cmp : β → β → Option Bool) (l : List (Nat × β))
    (h : (l.map Prod.fst).Nodup) :
    sortE (pyLt cmp) l = some (sortKey l) := by
  induction l with
  | nil => rfl
  | cons a l ih =>
    rw [List.map_cons, List.nodup_cons] at h
    have hrec := ih h.2
    have hins : ∀ b ∈ sortKey l, a.1 ≠ b.1 := by
      intro b hb
      have hbl : b ∈ l := (sortKey_perm l).mem_iff.mp hb
      intro heq
      exact h.1 (heq ▸ List.mem_map_of_mem Prod.fst hbl)
    calc sortE (pyLt cmp) (a :: l)
        = insertE (pyLt cmp) a (sortKey l) := by simp [sortE, hrec]
      _ = some (insKey a (sortKey l)) := insertE_eq_insKey cmp a (sortKey l) hins
      _ = some (sortKey (a :: l)) := rfl

theorem insKey_sorted {a : Nat × β} {l : List (Nat × β)}
    (hl : l.Pairwise keyLt) (h : ∀ b ∈ l, a.1 ≠ b.1) :
    (insKey a l).Pairwise keyLt := by
  induction l with
  | nil => simp [insKey]
  | cons b bs ih =>
    rw [List.pairwise_cons] at hl
    have hne : a.1 ≠ b.1 := h b (List.mem_cons_self b bs)
    by_cases hlt : a.1 < b.1
    · rw [insKey, if_pos hlt, List.pairwise_cons]
      refine ⟨?_, List.pairwise_cons.mpr hl⟩
      intro c hc
      rcases List.mem_cons.mp hc with rfl | hc
      · exact hlt
      · exact Nat.lt_trans hlt (hl.1 c hc)
    · have hgt : b.1 < a.1 := by omega
      rw [insKey, if_neg hlt, List.pairwise_cons]
      refine ⟨?_, ih hl.2 (fun c hc => h c (List.mem_cons_of_mem b hc))⟩
      intro c hc
      rcases mem_insKey hc with rfl | hc
      · exact hgt
      · exact hl.1 c hc

theorem sortKey_sorted (l : List (Nat × β)) (h : (l.map Prod.fst).Nodup) :
    (sortKey l).Pairwise keyLt := by
  induction l with
  | nil => simp [sortKey]
  | cons a l ih =>
    rw [List.map_cons, List.nodup_cons] at h
    refine insKey_sorted (ih h.2) ?_
    intro b hb
    have hbl : b ∈ l := (sortKey_perm l).mem_iff.mp hb
    intro heq
    exact h.1 (heq ▸ List.mem_map_of_mem Prod.fst hbl)

/-- The canonical index-tagged list `[(0, r 0), ..., (N-1, r (N-1))]`. -/
def canon (r : Nat → β) (N : Nat) : List (Nat × β) :=
  (List.range N).map (fun i => (i, r i))

theorem canon_sorted (r : Nat → β) (N : Nat) : (canon r N).Pairwise keyLt := by
  rw [canon, List.pairwise_map]
  exact (List.pairwise_lt_range N).imp (fun h => h)

/-- Any list of index-tagged pairs whose indices are a permutation of
`0..N-1` sorts by index to the canonical list. -/
theorem sortKey_eq_canon (r : Nat → β) (N : Nat) (l : List (Nat × β))
    (hperm : l ~ canon r N) :
    sortKey l = canon r N := by
  have hkeys : (l.map Prod.fst).Nodup := by
    have h1 : l.map Prod.fst ~ (canon r N).map Prod.fst := hperm.map Prod.fst
    have h2 : (canon r N).map Prod.fst = List.range N := by
      simp [canon, List.map_map, Function.comp_def]
    refine (h1.nodup_iff).mpr ?_
    rw [h2]
    exact List.nodup_range N
  exact @List.eq_of_perm_of_sorted _ keyLt _ _ _ ((sortKey_perm l).trans hperm)
    (sortKey_sorted l hkeys) (canon_sorted r N)

/-!
Models of `tqdm_asyncio.as_completed` (src/tqdm/asyncio.py lines 59-67) and
`tqdm_asyncio.gather` (lines 69-101).  The platform's unordered-completion
primitive `asyncio.as_completed` is modelled by the list of the operations'
settled outcomes in an arbitrary completion order, constrained in theorems
to be a permutation of the inputs' outcomes; an individual asynchronous
operation settles to `Except.ok` (its result) or `Except.error` (its raised
exception). -/

/-- Modelled from the spec: synchronous iteration of the proxy.  The
`yield from cls(...)` in `as_completed` drives the proxy through
`tqdm/std.py`'s `__iter__`, which is not under `src/`; spec §4.1's
iteration contract — pull the bound advance, fire one `update` after each
produced element, fire `close` once at the terminal event, pass elements
through unchanged — is the same produce-step protocol as `__anext__`, so
the synchronous drive reuses `drive` over a synchronous-iterator source
with normal exhaustion. -/
def syncDrive (elems : List β) : List β × List Eff × DriveEnd Empty :=
  drive (⟨false, true, elems, none⟩ : PySource β Empty) (elems.length + 1) 0

/-- Body of `tqdm_asyncio.as_completed`: default the displayed total to
`len(fs)` when not supplied, then yield every item of the platform's
unordered-completion sequence (modelled by `completed`, the settled
outcomes in completion order) through the progress proxy.  Returns the
yielded items, the display side-effect trace, how the drive ended, and the
total handed to the display collaborator. -/
def as_completed (completed : List β) (nInput : Nat) (total : Option Nat) :
    (List β × List Eff × DriveEnd Empty) × Nat :=
  (syncDrive completed, total.getD nInput)

/-- Body of `wrap_awaitable` inside `gather` (lines 83-84): awaiting the
tagged wrapper of operation `i` settles to `(i, result)` when the operation
settles to `result`, and to the operation's own exception otherwise. -/
def wrap_awaitable (fs : Nat → Except ε β) (i : Nat) : Except ε (Nat × β) :=
  (fs i).map (fun r => (i, r))

/-- The list comprehension `[await f for f in cls.as_completed(...)]`
(lines 88-96) over the tagged wrappers, with completion order `order`:
each step pulls one wrapper from the proxy (one `update` fires, after which
the source's `close` fires once at exhaustion, per the spec-modelled
synchronous drive of `syncDrive`), then awaits it; the first failing await
aborts the comprehension, discarding the pairs collected so far. -/
def drainTagged (fs : Nat → Except ε β) : List Nat → Except ε (List (Nat × β)) × List Eff
  | [] => (.ok [], [.close])
  | i :: rest =>
    match wrap_awaitable fs i with
    | .error e => (.error e, [.update])
    | .ok p =>
      let r := drainTagged fs rest
      (r.1.map (fun l => p :: l), .update :: r.2)

/-- Body of `tqdm_asyncio.gather`: tag each of the `N` operations with its
index, drain them through `as_completed` in completion order `order`,
then sort the collected `(index, result)` pairs with Python's lexicographic
tuple `<` (result comparison `cmp`, which may fail) and project out the
results.  Returns the overall outcome (`Except` for a propagated operation
failure, the inner `Option` for a sort-comparison failure), the display
side-effect trace, and the total handed to the display collaborator. -/
def gather (cmp : β → β → Option Bool) (fs : Nat → Except ε β) (N : Nat)
    (order : List Nat) (total : Option Nat) :
    Except ε (Option (List β)) × List Eff × Nat :=
  let t := total.getD N
  match drainTagged fs order with
  | (.error e, effs) => (.error e, effs, t)
  | (.ok numbered, effs) =>
    (.ok ((sortE (pyLt cmp) numbered).map (fun l => l.map Prod.snd)), effs, t)

/-- When every operation consulted succeeds, draining collects exactly the
`(index, result)` pairs in completion order, with one `update` per pair and
one final `close`. -/
theorem drainTagged_ok (fs : Nat → Except ε β) (r : Nat → β) (order : List Nat)
    (hok : ∀ i ∈ order, fs i = .ok (r i)) :
    drainTagged fs order =
      (.ok (order.map (fun i => (i, r i))),
       List.replicate order.length .update ++ [.close]) := by
  induction order with
  | nil => rfl
  | cons i rest ih =>
    have hi : fs i = .ok (r i) := hok i (List.mem_cons_self i rest)
    have hrec := ih (fun j hj => hok j (List.mem_cons_of_mem i hj))
    simp [drainTagged, wrap_awaitable, hi, hrec, Except.map, List.replicate_succ]

/-- No constructor of the drain emits a cancellation request. -/
theorem drainTagged_no_cancel (fs : Nat → Except ε β) (order : List Nat) :
    Eff.cancel ∉ (drainTagged fs order).2 := by
  induction order with
  | nil => simp [drainTagged]
  | cons i rest ih =>
    cases h : wrap_awaitable fs i with
    | error e => simp [drainTagged, h]
    | ok p => simp [drainTagged, h]; exact ih

/-- C5: `as_completed` over `N` input operations yields exactly `N` items —
the settled outcomes in completion order, a bijection with the inputs —
fires exactly `N` `update` calls, and this holds for every explicitly
supplied total `T` (which only becomes the displayed denominator); an
omitted total defaults to the size of the input collection. -/
theorem as_completed_yields_all (outcomes completed : List β) (total : Option Nat)
    (hperm : completed ~ outcomes) :
    (as_completed completed outcomes.length total).1.1 = completed ∧
    (as_completed completed outcomes.length total).1.1 ~ outcomes ∧
    (as_completed completed outcomes.length total).1.1.length = outcomes.length ∧
    (as_completed completed outcomes.length total).1.2.1.count Eff.update = outcomes.length ∧
    (as_completed completed outcomes.length total).2 = total.getD outcomes.length := by
  have hd := drive_spec (⟨false, true, completed, none⟩ : PySource β Empty)
    (completed.length + 1) 0 (Nat.zero_le _) (Nat.lt_succ_of_le (Nat.sub_le _ _))
  simp only [List.drop_zero, Nat.sub_zero] at hd
  have h1 : (as_completed completed outcomes.length total).1 =
      (completed, List.replicate completed.length .update ++ [.close], .exhausted) := by
    simpa [as_completed, syncDrive] using hd
  have hlen : completed.length = outcomes.length := hperm.length_eq
  refine ⟨by rw [h1], by rw [h1]; exact hperm, by rw [h1]; exact hlen, ?_, rfl⟩
  rw [h1]
  have c1 : ([Eff.close] : List Eff).count Eff.update = 0 := by decide
  simp [List.count_append, List.count_replicate, c1, hlen]

/-- Witness for C5: three operations with outcomes `[1, 2, 3]`, completing
in the order `[3, 1, 2]`, with an explicit total `7 ≠ 3`. -/
theorem as_completed_yields_all_witness :
    (as_completed [3, 1, 2] ([1, 2, 3] : List Nat).length (some 7)).1.1 = [3, 1, 2] ∧
    (as_completed [3, 1, 2] ([1, 2, 3] : List Nat).length (some 7)).1.1 ~ [1, 2, 3] ∧
    (as_completed [3, 1, 2] ([1, 2, 3] : List Nat).length (some 7)).1.1.length =
      ([1, 2, 3] : List Nat).length ∧
    (as_completed [3, 1, 2] ([1, 2, 3] : List Nat).length (some 7)).1.2.1.count Eff.update =
      ([1, 2, 3] : List Nat).length ∧
    (as_completed [3, 1, 2] ([1, 2, 3] : List Nat).length (some 7)).2 =
      (some 7).getD ([1, 2, 3] : List Nat).length :=
  as_completed_yields_all [1, 2, 3] [3, 1, 2] (some 7) (by decide)

/-- C4: when all `N` operations succeed with results `r 0, ..., r (N-1)`,
`gather` returns exactly `[r 0, ..., r (N-1)]` in original input-position
order, for every completion order and every result comparison (the
index-sort restores input order), firing `N` updates then one close. -/
theorem gather_preserves_input_order (cmp : β → β → Option Bool)
    (fs : Nat → Except ε β) (r : Nat → β) (N : Nat) (order : List Nat)
    (total : Option Nat)
    (hperm : order ~ List.range N) (hok : ∀ i < N, fs i = .ok (r i)) :
    gather cmp fs N order total =
      (.ok (some ((List.range N).map r)),
       List.replicate N .update ++ [.close],
       total.getD N) := by
  have hmem : ∀ i ∈ order, fs i = .ok (r i) := fun i hi =>
    hok i (List.mem_range.mp (hperm.mem_iff.mp hi))
  have hd := drainTagged_ok fs r order hmem
  have hlen : order.length = N := by simpa using hperm.length_eq
  have hcanon : order.map (fun i => (i, r i)) ~ canon r N := hperm.map _
  have hkeys : ((order.map (fun i => (i, r i))).map Prod.fst).Nodup := by
    have heq : (order.map (fun i => (i, r i))).map Prod.fst = order := by
      simp [List.map_map, Function.comp_def]
    rw [heq]
    exact hperm.nodup_iff.mpr (List.nodup_range N)
  have hsort := sortE_eq_sortKey cmp (order.map (fun i => (i, r i))) hkeys
  have hkey := sortKey_eq_canon r N (order.map (fun i => (i, r i))) hcanon
  have hproj : (canon r N).map Prod.snd = (List.range N).map r := by
    simp [canon, List.map_map, Function.comp_def]
  simp [gather, hd, hsort, hkey, hproj, hlen]

/-- Witness for C4: three operations resolving to `[0, 10, 20]` but
completing in order `[2, 0, 1]`, with a result comparison that always
fails (mutually non-comparable results). -/
theorem gather_preserves_input_order_witness :
    gather (fun _ _ => (none : Option Bool))
        (fun i => (.ok (10 * i) : Except Nat Nat)) 3 [2, 0, 1] none =
      (.ok (some [0, 10, 20]), [.update, .update, .update, .close], 3) :=
  gather_preserves_input_order _ _ (fun i => 10 * i) 3 [2, 0, 1] none
    (by decide) (fun i _ => rfl)

/-- When operation `j` in the completion order fails with `e` and every
other consulted operation succeeds, draining propagates exactly `e`. -/
theorem drainTagged_error (fs : Nat → Except ε β) (j : Nat) (e : ε) :
    ∀ order : List Nat, j ∈ order → fs j = .error e →
    (∀ i ∈ order, i ≠ j → ∃ rv, fs i = .ok rv) →
    (drainTagged fs order).1 = .error e := by
  intro order
  induction order with
  | nil => intro h; cases h
  | cons i rest ih =>
    intro hj hfail hok
    by_cases hij : i = j
    · subst hij
      simp [drainTagged, wrap_awaitable, hfail, Except.map]
    · obtain ⟨rv, hrv⟩ := hok i (List.mem_cons_self i rest) hij
      have hjrest : j ∈ rest := by
        rcases List.mem_cons.mp hj with h | h
        · exact absurd h.symm hij
        · exact h
      have hrec := ih hjrest hfail (fun i' hi' => hok i' (List.mem_cons_of_mem i hi'))
      simp [drainTagged, wrap_awaitable, hrv, hrec, Except.map]

/-- C6: if one input operation of `gather` fails with `E` (and the others
settle normally), the overall `gather` call fails with that identical `E` —
no partial result list is returned — and the core issues no cancellation of
the remaining sibling operations. -/
theorem gather_propagates_failure (cmp : β → β → Option Bool)
    (fs : Nat → Except ε β) (N : Nat) (order : List Nat) (total : Option Nat)
    (j : Nat) (e : ε)
    (hj : j ∈ order) (hfail : fs j = .error e)
    (hok : ∀ i ∈ order, i ≠ j → ∃ rv, fs i = .ok rv) :
    (gather cmp fs N order total).1 = .error e ∧
    Eff.cancel ∉ (gather cmp fs N order total).2.1 := by
  have h1 := drainTagged_error fs j e order hj hfail hok
  have h2 := drainTagged_no_cancel fs order
  rcases hdt : drainTagged fs order with ⟨res, effs⟩
  rw [hdt] at h1 h2
  simp only at h1 h2
  subst h1
  constructor
  · simp [gather, hdt]
  · simpa [gather, hdt] using h2

/-- Witness for C6: operation 1 of three fails with `42`; completion order
`[2, 1, 0]`. -/
theorem gather_propagates_failure_witness :
    (gather (fun _ _ => (none : Option Bool))
        (fun i => if i = 1 then (.error 42 : Except Nat Nat) else .ok i)
        3 [2, 1, 0] none).1 = .error 42 ∧
    Eff.cancel ∉ (gather (fun _ _ => (none : Option Bool))
        (fun i => if i = 1 then (.error 42 : Except Nat Nat) else .ok i)
        3 [2, 1, 0] none).2.1 :=
  gather_propagates_failure _ _ 3 [2, 1, 0] none 1 42 (by decide) rfl
    (fun i _ hne => ⟨i, by simp [hne]⟩)

/-- C8: `gather` over an empty input collection returns an immediately
empty ordered result, fires zero progress updates and raises no failure. -/
theorem gather_empty (cmp : β → β → Option Bool) (fs : Nat → Except ε β)
    (order : List Nat) (total : Option Nat) (hperm : order ~ List.range 0) :
    gather cmp fs 0 order total = (.ok (some []), [.close], total.getD 0) ∧
    (gather cmp fs 0 order total).2.1.count Eff.update = 0 := by
  have hnil : order = [] := by simpa using hperm
  subst hnil
  exact ⟨rfl, rfl⟩

/-- Witness for C8: the empty gather with an explicit total. -/
theorem gather_empty_witness :
    gather (fun _ _ => (none : Option Bool)) (fun _ => (.ok 0 : Except Nat Nat))
        0 [] (some 5) = (.ok (some []), [.close], 5) ∧
    (gather (fun _ _ => (none : Option Bool)) (fun _ => (.ok 0 : Except Nat Nat))
        0 [] (some 5)).2.1.count Eff.update = 0 :=
  gather_empty _ _ [] (some 5) (by decide)

/-- C10: the pairs collected by `gather` carry pairwise-distinct indices
forming exactly `0..N-1`, so the possibly-failing lexicographic sort of the
full pairs succeeds, equals the sort by index alone, and is independent of
the result comparison — it never compares two result values, and therefore
is deterministic and succeeds even for mutually non-comparable results. -/
theorem gather_sort_refines_key_sort (fs : Nat → Except ε β) (r : Nat → β)
    (N : Nat) (order : List Nat)
    (hperm : order ~ List.range N) (hok : ∀ i < N, fs i = .ok (r i)) :
    ∃ numbered : List (Nat × β),
      (drainTagged fs order).1 = .ok numbered ∧
      numbered.map Prod.fst ~ List.range N ∧
      (numbered.map Prod.fst).Nodup ∧
      ∀ cmp1 cmp2 : β → β → Option Bool,
        sortE (pyLt cmp1) numbered = some (sortKey numbered) ∧
        sortE (pyLt cmp1) numbered = sortE (pyLt cmp2) numbered := by
  refine ⟨order.map (fun i => (i, r i)), ?_, ?_, ?_, ?_⟩
  · have hmem : ∀ i ∈ order, fs i = .ok (r i) := fun i hi =>
      hok i (List.mem_range.mp (hperm.mem_iff.mp hi))
    rw [drainTagged_ok fs r order hmem]
  · have heq : (order.map (fun i => (i, r i))).map Prod.fst = order := by
      simp [List.map_map, Function.comp_def]
    rw [heq]
    exact hperm
  · have heq : (order.map (fun i => (i, r i))).map Prod.fst = order := by
      simp [List.map_map, Function.comp_def]
    rw [heq]
    exact hperm.nodup_iff.mpr (List.nodup_range N)
  · intro cmp1 cmp2
    have hkeys : ((order.map (fun i => (i, r i))).map Prod.fst).Nodup := by
      have heq : (order.map (fun i => (i, r i))).map Prod.fst = order := by
        simp [List.map_map, Function.comp_def]
      rw [heq]
      exact hperm.nodup_iff.mpr (List.nodup_range N)
    have h1 := sortE_eq_sortKey cmp1 (order.map (fun i => (i, r i))) hkeys
    have h2 := sortE_eq_sortKey cmp2 (order.map (fun i => (i, r i))) hkeys
    exact ⟨h1, h1.trans h2.symm⟩

/-- Witness for C10: two operations, completion order `[1, 0]`. -/
theorem gather_sort_refines_key_sort_witness :
    ∃ numbered : List (Nat × Nat),
      (drainTagged (fun i => (.ok (i + 5) : Except Nat Nat)) [1, 0]).1 = .ok numbered ∧
      numbered.map Prod.fst ~ List.range 2 ∧
      (numbered.map Prod.fst).Nodup ∧
      ∀ cmp1 cmp2 : Nat → Nat → Option Bool,
        sortE (pyLt cmp1) numbered = some (sortKey numbered) ∧
        sortE (pyLt cmp1) numbered = sortE (pyLt cmp2) numbered :=
  gather_sort_refines_key_sort _ (fun i => i + 5) 2 [1, 0] (by decide) (fun i _ => rfl)

end TqdmAsyncio
